import Mathlib

/-!
Verification of the fiftyone model-application and embedding pipeline
(`fiftyone/core/models.py`) and the VOC export routine
(`fiftyone/utils/voc.py`), via a shallow embedding.

Numpy arrays are modelled as finitely nested lists (`Tensor`); the numpy
operations actually used by the code (`np.concatenate`, `np.stack`,
indexing `a[0]`, iteration over axis 0) are modelled with their error
behaviour (e.g. `np.concatenate([])` raises `ValueError`).  Models are
embedded as records of pure functions, which is the intended domain of the
batch-invariance claims (deterministic inference).  Samples carry an
explicit field store, and the pipelines additionally return a trace of
their externally visible effects (media decodes, field writes, saves).
-/

namespace FO

/-- A numpy-style array: either a scalar (0-d) or a sequence of
sub-arrays along axis 0.  Shape-uniformity is not tracked. -/
inductive Tensor (α : Type) where
  | scalar (a : α) : Tensor α
  | arr (ts : List (Tensor α)) : Tensor α

mutual

def Tensor.deq {α : Type} [DecidableEq α] : (a b : Tensor α) → Decidable (a = b)
  | .scalar x, .scalar y =>
    match decEq x y with
    | isTrue h => isTrue (by rw [h])
    | isFalse h => isFalse (fun hh => by cases hh; exact h rfl)
  | .scalar _, .arr _ => isFalse (fun h => Tensor.noConfusion h)
  | .arr _, .scalar _ => isFalse (fun h => Tensor.noConfusion h)
  | .arr xs, .arr ys =>
    match Tensor.deqList xs ys with
    | isTrue h => isTrue (by rw [h])
    | isFalse h => isFalse (fun hh => by injection hh with h1; exact h h1)

def Tensor.deqList {α : Type} [DecidableEq α] :
    (as bs : List (Tensor α)) → Decidable (as = bs)
  | [], [] => isTrue rfl
  | [], _ :: _ => isFalse (fun h => List.noConfusion h)
  | _ :: _, [] => isFalse (fun h => List.noConfusion h)
  | a :: as, b :: bs =>
    match Tensor.deq a b, Tensor.deqList as bs with
    | isTrue h1, isTrue h2 => isTrue (by rw [h1, h2])
    | isFalse h1, _ => isFalse (fun h => by injection h with ha hb; exact h1 ha)
    | _, isFalse h2 => isFalse (fun h => by injection h with ha hb; exact h2 hb)

end

instance {α : Type} [DecidableEq α] : DecidableEq (Tensor α) := Tensor.deq

/-- Errors raised by the numpy operations the pipeline uses. -/
inductive NpErr where
  | concatEmpty   -- np.concatenate([]): "need at least one array to concatenate"
  | concatScalar  -- np.concatenate on zero-dimensional inputs
  | stackEmpty    -- np.stack([]): "need at least one array to stack"
  | indexOut      -- a[0] on an array with empty axis 0
  | indexScalar   -- a[0] on a 0-d array
  | iterScalar    -- iterating over a 0-d array
deriving DecidableEq

/-- The rows of an array along axis 0 (`list(a)`); fails on 0-d input. -/
def Tensor.toRows {α : Type} : Tensor α → Option (List (Tensor α))
  | .arr ts => some ts
  | .scalar _ => none

/-- The rows of every array in the list, or `none` if any is 0-d. -/
def toRowsAll {α : Type} : List (Tensor α) → Option (List (List (Tensor α)))
  | [] => some []
  | t :: ts =>
    match t.toRows, toRowsAll ts with
    | some r, some rs => some (r :: rs)
    | _, _ => none

/-- `np.concatenate(ts)` along axis 0. -/
def npConcat {α : Type} (ts : List (Tensor α)) : Except NpErr (Tensor α) :=
  match ts with
  | [] => .error .concatEmpty
  | _ =>
    match toRowsAll ts with
    | some rss => .ok (.arr rss.flatten)
    | none => .error .concatScalar

/-- `np.stack(ts, axis=0)`: a new leading axis. -/
def npStack {α : Type} (ts : List (Tensor α)) : Except NpErr (Tensor α) :=
  match ts with
  | [] => .error .stackEmpty
  | _ => .ok (.arr ts)

/-- `a[0]` for an array `a`. -/
def npIdx0 {α : Type} : Tensor α → Except NpErr (Tensor α)
  | .arr (t :: _) => .ok t
  | .arr [] => .error .indexOut
  | .scalar _ => .error .indexScalar

/-- Errors the embedding pipeline can raise. -/
inductive PipeErr where
  | capabilityMismatch  -- model is not an EmbeddingsMixin / has_embeddings is False
  | mediaTypeMismatch   -- compute_patch_embeddings on non-image media
  | np (e : NpErr)      -- propagated numpy error
deriving DecidableEq

/-- Modelled from the spec: `fiftyone.core.utils.iter_batches` is not under
`src/`; per the spec it partitions a sequence into contiguous batches of at
most `bs` elements, the last batch possibly shorter.  Fuel-based recursion;
the fuel `xs.length` suffices whenever `bs ≥ 1` (faithfulness is only
claimed for `bs ≥ 1`, where the Python generator terminates). -/
def chunkAux {α : Type} : Nat → Nat → List α → List (List α)
  | 0, _, _ => []
  | _, _, [] => []
  | fuel + 1, bs, x :: xs =>
    (x :: xs).take bs :: chunkAux fuel bs ((x :: xs).drop bs)

/-- Contiguous batches of at most `bs` elements, in order. -/
def chunkList {α : Type} (bs : Nat) (xs : List α) : List (List α) :=
  chunkAux xs.length bs xs

/-- The first step of `_parse_batch_size` (models.py lines 401-403):
if no batch size was requested, `fo.config.default_batch_size` is used in
its place.  `parseBatchSize` below is the whole of `_parse_batch_size`:
it returns the negotiated size (`none` = no batching) together with
whether the non-fatal "Model does not support batching" warning was
logged. -/
def resolveBS (batchSize dflt : Option Int) : Option Int :=
  match batchSize with
  | none => dflt
  | some k => some k

/-- The negotiation itself (lines 405-409). -/
def parseBatchSize (batchSize dflt : Option Int) (ragged : Bool) :
    Option Int × Bool :=
  match resolveBS batchSize dflt with
  | some k => if 1 < k ∧ ragged then (none, true) else (some k, false)
  | none => (none, false)

/-- `samples.media_type`. -/
inductive MediaType where
  | image
  | video
deriving DecidableEq

/-- The value held by a `patches_field`: one of the label types accepted by
`_parse_patches` (models.py lines 373-388).  The Polyline/Polylines
conversions to detections are external (`to_detection`/`to_detections`,
"treated as given" per the spec), so those constructors carry their
converted detections. -/
inductive PatchLabel (D : Type) where
  | detection (d : D) : PatchLabel D
  | detections (ds : List D) : PatchLabel D
  | polyline (d : D) : PatchLabel D
  | polylines (ds : List D) : PatchLabel D
deriving DecidableEq

/-- A sample: id, filepath, the value of the patches field (if any), and a
store of named tensor fields (newest binding first). -/
structure Sample (D α : Type) where
  id : Nat
  filepath : String
  patches : Option (PatchLabel D)
  fields : List (String × Tensor α)
deriving DecidableEq

/-- Modelled from the spec: the external sample store's `sample.get(field)`. -/
def getField {D α : Type} (s : Sample D α) (f : String) : Option (Tensor α) :=
  (s.fields.find? (fun p => p.1 == f)).map (·.2)

/-- Modelled from the spec: the external sample store's
`sample.set(field, value)`. -/
def setField {D α : Type} (s : Sample D α) (f : String) (v : Tensor α) :
    Sample D α :=
  { s with fields := (f, v) :: s.fields }

/-- Externally visible side effects of a pipeline run. -/
inductive Eff where
  | decode (path : String)          -- etai.read(sample.filepath)
  | write (id : Nat) (f : String)   -- sample[field] = value
  | save (id : Nat)                 -- sample.save()
deriving DecidableEq

/-- A model, as the pipeline sees it: capability flags plus deterministic
inference functions (the domain of the batch-invariance claims).
`embed`/`embedAll` are the model's `embed`/`embed_all`; `Img` is the type
of decoded images (and of extracted patches). -/
structure PipeModel (Img α : Type) where
  isEmbMixin : Bool      -- isinstance(model, EmbeddingsMixin)
  hasEmbeddings : Bool   -- model.has_embeddings
  isTorch : Bool         -- isinstance(model, TorchModelMixin)
  raggedBatches : Bool   -- model.ragged_batches
  embed : Img → Tensor α
  embedAll : List Img → Tensor α

/-- The default `EmbeddingsMixin.embed_all` applied to a pure `embed`:
`np.stack([self.embed(arg) for arg in args], axis=0)`.  (Total here: the
pipelines below only invoke `embed_all` on nonempty batches, where
`np.stack` succeeds.) -/
def defaultEmbedAll {Img α : Type} (embed : Img → Tensor α)
    (args : List Img) : Tensor α :=
  .arr (args.map embed)

/-- Result of `compute_embeddings`. -/
inductive CERet (α : Type) where
  | ok (r : Option (Tensor α))  -- returned value: the array, or None in field mode
  | raised (e : PipeErr)
  | videoDelegated              -- routed to _compute_video_embeddings
  | torchDelegated              -- routed to the Torch data-loader path
deriving DecidableEq

structure CEResult (D α : Type) where
  samples : List (Sample D α)
  trace : List Eff
  ret : CERet α
deriving DecidableEq

/-- The loop of `_compute_image_embeddings_single` (models.py lines
173-191): per sample, decode, `model.embed`, then either write
`embedding[0]` to the field and save, or accumulate `embedding`.  Returns
(updated samples, effect trace, accumulated embeddings or error); on an
error, already-processed samples keep their writes. -/
def singleLoop {D Img α : Type} (m : PipeModel Img α) (decode : String → Img)
    (fld : Option String) :
    List (Sample D α) →
      List (Sample D α) × List Eff × Except PipeErr (List (Tensor α))
  | [] => ([], [], .ok [])
  | s :: rest =>
    let emb := m.embed (decode s.filepath)
    match fld with
    | some f =>
      match npIdx0 emb with
      | .error e => (s :: rest, [.decode s.filepath], .error (.np e))
      | .ok v =>
        let r := singleLoop m decode fld rest
        (setField s f v :: r.1,
          .decode s.filepath :: .write s.id f :: .save s.id :: r.2.1,
          r.2.2)
    | none =>
      let r := singleLoop m decode fld rest
      (s :: r.1, .decode s.filepath :: r.2.1, r.2.2.map (emb :: ·))

/-- The loop of `_compute_image_embeddings_batch` (models.py lines
194-221) over the already-chunked sample batches: per batch, decode all
images, `model.embed_all`, then either zip the batch with the rows of the
result writing and saving each, or accumulate the whole batch array.
Python's `zip` truncates silently at the shorter sequence. -/
def batchLoop {D Img α : Type} (m : PipeModel Img α) (decode : String → Img)
    (fld : Option String) :
    List (List (Sample D α)) →
      List (Sample D α) × List Eff × Except PipeErr (List (Tensor α))
  | [] => ([], [], .ok [])
  | batch :: rest =>
    let dtr := batch.map (fun s => Eff.decode s.filepath)
    let embB := m.embedAll (batch.map (fun s => decode s.filepath))
    match fld with
    | some f =>
      match embB.toRows with
      | none => (batch ++ rest.flatten, dtr, .error (.np .iterScalar))
      | some rows =>
        let upd := List.zipWith (fun s v => setField s f v) batch rows
        let wtr := (batch.zip rows).flatMap
          (fun p => [Eff.write p.1.id f, Eff.save p.1.id])
        let r := batchLoop m decode fld rest
        (upd ++ batch.drop rows.length ++ r.1, dtr ++ wtr ++ r.2.1, r.2.2)
    | none =>
      let r := batchLoop m decode fld rest
      (batch ++ r.1, dtr ++ r.2.1, r.2.2.map (embB :: ·))

/-- Finalization shared by both image-embedding executors: in field mode
return None; otherwise `np.concatenate` the accumulated embeddings. -/
def finalizeCE {α : Type} (fld : Option String)
    (res : Except PipeErr (List (Tensor α))) : CERet α :=
  match res with
  | .error e => .raised e
  | .ok ts =>
    match fld with
    | some _ => .ok none
    | none =>
      match npConcat ts with
      | .error e => .raised (.np e)
      | .ok t => .ok (some t)

/-- `compute_embeddings(samples, model, embeddings_field, batch_size)`
(models.py lines 119-170): capability checks, dispatch on media type /
Torch mixin, batch-size negotiation, then the single or batched executor.
`dflt` is `fo.config.default_batch_size`. -/
def computeEmbeddings {D Img α : Type} (m : PipeModel Img α)
    (decode : String → Img) (mt : MediaType) (samples : List (Sample D α))
    (fld : Option String) (batchSize dflt : Option Int) : CEResult D α :=
  if m.isEmbMixin = false then ⟨samples, [], .raised .capabilityMismatch⟩
  else if m.hasEmbeddings = false then
    ⟨samples, [], .raised .capabilityMismatch⟩
  else if mt = .video then ⟨samples, [], .videoDelegated⟩
  else if m.isTorch then ⟨samples, [], .torchDelegated⟩
  else
    match (parseBatchSize batchSize dflt m.raggedBatches).1 with
    | some bs =>
      let r := batchLoop m decode fld (chunkList bs.toNat samples)
      ⟨r.1, r.2.1, finalizeCE fld r.2.2⟩
    | none =>
      let r := singleLoop m decode fld samples
      ⟨r.1, r.2.1, finalizeCE fld r.2.2⟩

/-- `_parse_patches(sample, patches_field)` (models.py lines 373-388),
as the list of detections it yields (`Detections.detections`). -/
def parsePatches {D : Type} : Option (PatchLabel D) → Option (List D)
  | some (.detection d) => some [d]
  | some (.detections ds) => some ds
  | some (.polyline d) => some [d]
  | some (.polylines ds) => some ds
  | none => none

/-- `_embed_patches_single` (models.py lines 348-355): embed each
extracted patch, `np.concatenate` the results.  `extract` is the external
`_extract_patch` geometry, `extract img d force_square alpha`. -/
def embedPatchesSingle {D Img α : Type} (m : PipeModel Img α)
    (extract : Img → D → Bool → Option ℚ → Img) (img : Img) (fsq : Bool)
    (alpha : Option ℚ) (dets : List D) : Except NpErr (Tensor α) :=
  npConcat (dets.map (fun d => m.embed (extract img d fsq alpha)))

/-- `_embed_patches_batch` (models.py lines 358-370): chunk the detections,
embed each batch of extracted patches with `embed_all`, concatenate. -/
def embedPatchesBatch {D Img α : Type} (m : PipeModel Img α)
    (extract : Img → D → Bool → Option ℚ → Img) (img : Img) (fsq : Bool)
    (alpha : Option ℚ) (bs : Nat) (dets : List D) : Except NpErr (Tensor α) :=
  npConcat ((chunkList bs dets).map
    (fun batch => m.embedAll (batch.map (fun d => extract img d fsq alpha))))

/-- Result of `compute_patch_embeddings`: the sample-ID-keyed mapping (as
an association list in insertion order), or None in field mode. -/
inductive CPERet (α : Type) where
  | ok (r : Option (List (Nat × Tensor α)))
  | raised (e : PipeErr)
  | torchDelegated
deriving DecidableEq

structure CPEResult (D α : Type) where
  samples : List (Sample D α)
  trace : List Eff
  ret : CPERet α
deriving DecidableEq

/-- The single/batched dispatch for one sample's patches
(models.py lines 330-337). -/
def embedPatchesDispatch {D Img α : Type} (m : PipeModel Img α)
    (extract : Img → D → Bool → Option ℚ → Img) (img : Img) (fsq : Bool)
    (alpha : Option ℚ) (bsOpt : Option Nat) (dets : List D) :
    Except NpErr (Tensor α) :=
  match bsOpt with
  | none => embedPatchesSingle m extract img fsq alpha dets
  | some bs => embedPatchesBatch m extract img fsq alpha bs dets

/-- The per-sample loop of `compute_patch_embeddings` (models.py lines
321-344): resolve the patches field; skip the sample if it yields no
detections; otherwise decode the image once, embed its patches (single or
batched per the negotiated size), then write the field or record a
mapping entry. -/
def patchLoop {D Img α : Type} (m : PipeModel Img α) (decode : String → Img)
    (extract : Img → D → Bool → Option ℚ → Img) (fld : Option String)
    (fsq : Bool) (alpha : Option ℚ) (bsOpt : Option Nat) :
    List (Sample D α) →
      List (Sample D α) × List Eff × Except PipeErr (List (Nat × Tensor α))
  | [] => ([], [], .ok [])
  | s :: rest =>
    match parsePatches s.patches with
    | none =>
      let r := patchLoop m decode extract fld fsq alpha bsOpt rest
      (s :: r.1, r.2.1, r.2.2)
    | some [] =>
      let r := patchLoop m decode extract fld fsq alpha bsOpt rest
      (s :: r.1, r.2.1, r.2.2)
    | some (d :: ds) =>
      match embedPatchesDispatch m extract (decode s.filepath) fsq alpha bsOpt
          (d :: ds) with
      | .error e => (s :: rest, [.decode s.filepath], .error (.np e))
      | .ok emb =>
        match fld with
        | some f =>
          let r := patchLoop m decode extract fld fsq alpha bsOpt rest
          (setField s f emb :: r.1,
            .decode s.filepath :: .write s.id f :: .save s.id :: r.2.1,
            r.2.2)
        | none =>
          let r := patchLoop m decode extract fld fsq alpha bsOpt rest
          (s :: r.1, .decode s.filepath :: r.2.1,
            r.2.2.map ((s.id, emb) :: ·))

/-- `compute_patch_embeddings` (models.py lines 245-345): media-type check
first, then capability checks, Torch dispatch, batch-size negotiation, and
the per-sample loop.  (The label-field validation call is external.) -/
def computePatchEmbeddings {D Img α : Type} (m : PipeModel Img α)
    (decode : String → Img) (extract : Img → D → Bool → Option ℚ → Img)
    (mt : MediaType) (samples : List (Sample D α)) (fld : Option String)
    (batchSize dflt : Option Int) (fsq : Bool) (alpha : Option ℚ) :
    CPEResult D α :=
  if mt ≠ .image then ⟨samples, [], .raised .mediaTypeMismatch⟩
  else if m.isEmbMixin = false then ⟨samples, [], .raised .capabilityMismatch⟩
  else if m.hasEmbeddings = false then
    ⟨samples, [], .raised .capabilityMismatch⟩
  else if m.isTorch then ⟨samples, [], .torchDelegated⟩
  else
    let bsOpt := ((parseBatchSize batchSize dflt m.raggedBatches).1).map
      Int.toNat
    let r := patchLoop m decode extract fld fsq alpha bsOpt samples
    match r.2.2 with
    | .error e => ⟨r.1, r.2.1, .raised e⟩
    | .ok dict =>
      match fld with
      | some _ => ⟨r.1, r.2.1, .ok none⟩
      | none => ⟨r.1, r.2.1, .ok (some dict)⟩

/-- A model as `EmbeddingsMixin` sees it: `predict` mutates internal state
(the last forward pass), `get_embeddings` reads it. -/
structure MixinModel (I α σ : Type) where
  predict : σ → I → σ
  getEmbeddings : σ → Tensor α

/-- The default `EmbeddingsMixin.embed` (models.py lines 588-603):
`self.predict(arg); return self.get_embeddings()`. -/
def MixinModel.embed {I α σ : Type} (m : MixinModel I α σ) (st : σ)
    (arg : I) : σ × Tensor α :=
  let st2 := m.predict st arg
  (st2, m.getEmbeddings st2)

/-- The state-threaded list comprehension
`[self.embed(arg) for arg in args]`. -/
def MixinModel.embedSeq {I α σ : Type} (m : MixinModel I α σ) :
    σ → List I → σ × List (Tensor α)
  | st, [] => (st, [])
  | st, a :: as =>
    let r := m.embed st a
    let r2 := m.embedSeq r.1 as
    (r2.1, r.2 :: r2.2)

/-- The default `EmbeddingsMixin.embed_all` (models.py lines 605-618):
`np.stack([self.embed(arg) for arg in args], axis=0)`. -/
def MixinModel.embedAll {I α σ : Type} (m : MixinModel I α σ) (st : σ)
    (args : List I) : σ × Except NpErr (Tensor α) :=
  let r := m.embedSeq st args
  (r.1, npStack r.2)

/-- A normalized bounding box `[x, y, w, h]` in `[0,1]×[0,1]`. -/
structure BBox where
  x : ℚ
  y : ℚ
  w : ℚ
  h : ℚ
deriving DecidableEq

/-- The box is valid normalized geometry: inside the unit square with
nonnegative dimensions. -/
def BBox.valid (b : BBox) : Prop :=
  0 ≤ b.x ∧ 0 ≤ b.y ∧ 0 ≤ b.w ∧ 0 ≤ b.h ∧ b.x + b.w ≤ 1 ∧ b.y + b.h ≤ 1

instance (b : BBox) : Decidable b.valid := by
  unfold BBox.valid; infer_instance

/-- Modelled from the spec: `bbox.pad_relative(alpha)` (external eta
geometry).  Spec §4.5: "scale both box dimensions by `(1 + alpha)` about
the box center, clamped to remain a valid box". -/
def padRelative (alpha : ℚ) (b : BBox) : BBox :=
  let w2 := (1 + alpha) * b.w
  let h2 := (1 + alpha) * b.h
  let x2 := b.x + (b.w - w2) / 2
  let y2 := b.y + (b.h - h2) / 2
  let xl := max 0 x2
  let yt := max 0 y2
  let xr := min 1 (x2 + w2)
  let yb := min 1 (y2 + h2)
  ⟨xl, yt, xr - xl, yb - yt⟩

/-- Modelled from the spec: `force_square` handling (external eta
geometry).  Spec §4.5: "minimally grow the shorter side so width equals
height, centered on the original box". -/
def squareBox (b : BBox) : BBox :=
  let side := max b.w b.h
  ⟨b.x + (b.w - side) / 2, b.y + (b.h - side) / 2, side, side⟩

/-- Modelled from the spec: conversion of a normalized box to pixel
coordinates `(x, y, w, h)` in a `W×H` image (external eta geometry,
"converting to pixel coordinates and cropping"). -/
def toPixelBox (W H : ℤ) (b : BBox) : ℤ × ℤ × ℤ × ℤ :=
  (round (b.x * W), round (b.y * H), round (b.w * W), round (b.h * H))

/-- `_extract_patch(img, detection, force_square, alpha)` (models.py lines
391-398), at the level of the extraction box: pad only when `alpha` is
supplied, then extract (with optional squaring) in pixel coordinates. -/
def extractPatchBox (W H : ℤ) (fsq : Bool) (alpha : Option ℚ) (b : BBox) :
    ℤ × ℤ × ℤ × ℤ :=
  let b1 := match alpha with
    | none => b
    | some a => padRelative a b
  let b2 := if fsq then squareBox b1 else b1
  toPixelBox W H b2

/-- An image path for the VOC exporter, represented by
`os.path.splitext(os.path.basename(img_path))` — the only parts of the
path the export loop's naming logic uses. -/
structure VocImage where
  name : String
  ext : String
deriving DecidableEq

/-- The loop of `export_voc_detection_dataset` (voc.py lines 279-296).
`seen` holds the names already processed, so `seen.count p.name + 1` is
the value of `data_filename_counts[name]` after its increment.  When that
count exceeds 1 the code executes `name += "-%d" + count`, a string+int
concatenation that raises `TypeError`; nothing is written in that
iteration and the run aborts (second component `true`).  Otherwise the
image is copied as `name + ext` and the annotation written as
`name + ".xml"`. -/
def exportGo : List String → List VocImage → List String × Bool
  | _, [] => ([], false)
  | seen, p :: rest =>
    if 1 < seen.count p.name + 1 then ([], true)
    else
      let r := exportGo (p.name :: seen) rest
      ((p.name ++ p.ext) :: (p.name ++ ".xml") :: r.1, r.2)

/-- `export_voc_detection_dataset(image_paths, ...)`, as the list of
output filenames it creates in order plus whether it raised. -/
def exportVoc (paths : List VocImage) : List String × Bool :=
  exportGo [] paths

/-- The longest prefix of `paths` whose names are fresh relative to `seen`
and pairwise distinct: the part of the input the export loop completes
before hitting a duplicate. -/
def takeDistinctFrom (seen : List String) : List VocImage → List VocImage
  | [] => []
  | p :: rest =>
    if p.name ∈ seen then []
    else p :: takeDistinctFrom (p.name :: seen) rest

/-! ### Chunking lemmas -/

theorem chunkAux_flatten {α : Type} (bs : Nat) (hbs : 1 ≤ bs) :
    ∀ (fuel : Nat) (xs : List α), xs.length ≤ fuel →
      (chunkAux fuel bs xs).flatten = xs := by
  intro fuel
  induction fuel with
  | zero =>
    intro xs hx
    have : xs = [] := List.length_eq_zero.mp (Nat.le_zero.mp hx)
    subst this; rfl
  | succ n ih =>
    intro xs hx
    match xs with
    | [] => rfl
    | x :: rest =>
      simp only [chunkAux, List.flatten_cons]
      rw [ih ((x :: rest).drop bs) ?_, List.take_append_drop]
      have hlen : ((x :: rest).drop bs).length = (x :: rest).length - bs := by
        simp [List.length_drop]
      have : (x :: rest).length - bs ≤ n := by
        have h1 : (x :: rest).length ≤ n + 1 := hx
        omega
      omega

theorem chunkList_flatten {α : Type} (bs : Nat) (hbs : 1 ≤ bs)
    (xs : List α) : (chunkList bs xs).flatten = xs :=
  chunkAux_flatten bs hbs xs.length xs le_rfl

theorem chunkAux_mem {α : Type} (bs : Nat) (hbs : 1 ≤ bs) :
    ∀ (fuel : Nat) (xs : List α) (c : List α), c ∈ chunkAux fuel bs xs →
      c.length ≤ bs ∧ c ≠ [] := by
  intro fuel
  induction fuel with
  | zero => intro xs c hc; simp [chunkAux] at hc
  | succ n ih =>
    intro xs c hc
    match xs with
    | [] => simp [chunkAux] at hc
    | x :: rest =>
      simp only [chunkAux, List.mem_cons] at hc
      rcases hc with h | h
      · subst h
        constructor
        · simp [List.length_take_le bs (x :: rest)]
        · match bs, hbs with
          | b + 1, _ => simp [List.take_succ_cons]
      · exact ih _ _ h

theorem chunkList_mem {α : Type} (bs : Nat) (hbs : 1 ≤ bs) (xs : List α)
    (c : List α) (hc : c ∈ chunkList bs xs) : c.length ≤ bs ∧ c ≠ [] :=
  chunkAux_mem bs hbs xs.length xs c hc

theorem chunkList_eq_nil_iff {α : Type} (bs : Nat) (xs : List α) :
    chunkList bs xs = [] ↔ xs = [] := by
  constructor
  · intro h
    match xs with
    | [] => rfl
    | x :: rest => simp [chunkList, chunkAux] at h
  · intro h; subst h; rfl

/-! ### Small list helpers -/

theorem zipWith_map_self {β γ δ : Type} (c : List β) (g : β → γ)
    (f : β → γ → δ) :
    List.zipWith f c (c.map g) = c.map (fun s => f s (g s)) := by
  induction c with
  | nil => rfl
  | cons x xs ih => simp [ih]

theorem zip_map_self {β γ : Type} (c : List β) (g : β → γ) :
    c.zip (c.map g) = c.map (fun s => (s, g s)) := by
  induction c with
  | nil => rfl
  | cons x xs ih => simp [ih]

theorem flatten_map_singleton {β γ : Type} (xs : List β) (g : β → γ) :
    (xs.map (fun s => [g s])).flatten = xs.map g := by
  induction xs with
  | nil => rfl
  | cons x rest ih => simp [ih]

theorem toRowsAll_map_arr {α : Type} (L : List (List (Tensor α))) :
    toRowsAll (L.map Tensor.arr) = some L := by
  induction L with
  | nil => rfl
  | cons c rest ih => simp [toRowsAll, ih, Tensor.toRows]

theorem npConcat_map_arr {α : Type} (L : List (List (Tensor α))) :
    npConcat (L.map Tensor.arr) =
      match L with
      | [] => .error .concatEmpty
      | _ => .ok (.arr L.flatten) := by
  match L with
  | [] => rfl
  | c :: rest =>
    simp only [npConcat, List.map_cons]
    rw [show toRowsAll (Tensor.arr c :: rest.map Tensor.arr)
          = some (c :: rest) by simpa using toRowsAll_map_arr (c :: rest)]

/-! ### Executor-loop characterizations -/

theorem singleLoop_none_eq {D Img α : Type} (m : PipeModel Img α)
    (dec : String → Img) (ss : List (Sample D α)) :
    singleLoop m dec none ss =
      (ss, ss.map (fun s => Eff.decode s.filepath),
        .ok (ss.map (fun s => m.embed (dec s.filepath)))) := by
  induction ss with
  | nil => rfl
  | cons s rest ih => simp [singleLoop, ih, Except.map]

theorem singleLoop_some_eq {D Img α : Type} (m : PipeModel Img α)
    (dec : String → Img) (f : String) (v : Img → Tensor α)
    (hv : ∀ i, m.embed i = .arr [v i]) (ss : List (Sample D α)) :
    singleLoop m dec (some f) ss =
      (ss.map (fun s => setField s f (v (dec s.filepath))),
        ss.flatMap (fun s =>
          [Eff.decode s.filepath, Eff.write s.id f, Eff.save s.id]),
        .ok []) := by
  induction ss with
  | nil => rfl
  | cons s rest ih =>
    simp only [singleLoop, hv, npIdx0, ih]
    simp

theorem batchLoop_none_eq {D Img α : Type} (m : PipeModel Img α)
    (dec : String → Img) (cs : List (List (Sample D α))) :
    batchLoop m dec none cs =
      (cs.flatten,
        cs.flatMap (fun c => c.map (fun s => Eff.decode s.filepath)),
        .ok (cs.map (fun c => m.embedAll (c.map (fun s => dec s.filepath))))) := by
  induction cs with
  | nil => rfl
  | cons c rest ih => simp [batchLoop, ih, Except.map]

theorem batchLoop_some_eq {D Img α : Type} (m : PipeModel Img α)
    (dec : String → Img) (f : String) (v : Img → Tensor α)
    (hva : ∀ l, m.embedAll l = .arr (l.map v))
    (cs : List (List (Sample D α))) :
    batchLoop m dec (some f) cs =
      (cs.flatten.map (fun s => setField s f (v (dec s.filepath))),
        cs.flatMap (fun c =>
          c.map (fun s => Eff.decode s.filepath) ++
          c.flatMap (fun s => [Eff.write s.id f, Eff.save s.id])),
        .ok []) := by
  induction cs with
  | nil => rfl
  | cons c rest ih =>
    simp only [batchLoop, hva, Tensor.toRows, List.map_map, ih]
    rw [zipWith_map_self, zip_map_self]
    simp [List.flatMap_map, Function.comp]

/-! ### Finalization of the in-memory return value -/

theorem finalize_single_none {D Img α : Type} (m : PipeModel Img α)
    (dec : String → Img) (v : Img → Tensor α)
    (hv : ∀ i, m.embed i = .arr [v i]) (ss : List (Sample D α)) :
    finalizeCE none (.ok (ss.map (fun s => m.embed (dec s.filepath)))) =
      match ss with
      | [] => CERet.raised (.np .concatEmpty)
      | _ => CERet.ok (some (.arr (ss.map (fun s => v (dec s.filepath))))) := by
  have h1 : ss.map (fun s => m.embed (dec s.filepath)) =
      (ss.map (fun s => [v (dec s.filepath)])).map Tensor.arr := by
    simp [hv]
  rw [show finalizeCE none (Except.ok (ss.map (fun s => m.embed (dec s.filepath))))
        = finalizeCE none (.ok ((ss.map (fun s => [v (dec s.filepath)])).map Tensor.arr))
      by rw [h1]]
  simp only [finalizeCE]
  rw [npConcat_map_arr]
  match ss with
  | [] => rfl
  | s :: rest => simp [flatten_map_singleton]

theorem finalize_batch_none {D Img α : Type} (m : PipeModel Img α)
    (dec : String → Img) (v : Img → Tensor α)
    (hva : ∀ l, m.embedAll l = .arr (l.map v)) (bs : Nat) (hbs : 1 ≤ bs)
    (ss : List (Sample D α)) :
    finalizeCE none (.ok ((chunkList bs ss).map
        (fun c => m.embedAll (c.map (fun s => dec s.filepath))))) =
      match ss with
      | [] => CERet.raised (.np .concatEmpty)
      | _ => CERet.ok (some (.arr (ss.map (fun s => v (dec s.filepath))))) := by
  have h1 : (chunkList bs ss).map
        (fun c => m.embedAll (c.map (fun s => dec s.filepath))) =
      ((chunkList bs ss).map (fun c => c.map (fun s => v (dec s.filepath)))).map
        Tensor.arr := by
    simp [hva, List.map_map, Function.comp_def]
  rw [h1]
  simp only [finalizeCE]
  rw [npConcat_map_arr]
  have hflat : ((chunkList bs ss).map
      (fun c => c.map (fun s => v (dec s.filepath)))).flatten =
      ss.map (fun s => v (dec s.filepath)) := by
    rw [← List.map_flatten, chunkList_flatten bs hbs]
  cases ss with
  | nil => rfl
  | cons s rest =>
    have hcs : chunkList bs (s :: rest) ≠ [] := by
      intro h
      exact List.noConfusion ((chunkList_eq_nil_iff bs (s :: rest)).mp h)
    match hcc : chunkList bs (s :: rest) with
    | [] => exact absurd hcc hcs
    | c :: cs =>
      rw [hcc] at hflat
      exact congrArg (fun l => CERet.ok (some (Tensor.arr l))) hflat

/-- Dispatch of `compute_embeddings` once the capability checks pass and
neither the video nor the Torch branch is taken. -/
theorem computeEmbeddings_run {D Img α : Type} (m : PipeModel Img α)
    (dec : String → Img) (ss : List (Sample D α)) (fld : Option String)
    (bsk d : Option Int) (h1 : m.isEmbMixin = true)
    (h2 : m.hasEmbeddings = true) (h4 : m.isTorch = false) :
    computeEmbeddings m dec .image ss fld bsk d =
      match (parseBatchSize bsk d m.raggedBatches).1 with
      | some bs =>
        ⟨(batchLoop m dec fld (chunkList bs.toNat ss)).1,
          (batchLoop m dec fld (chunkList bs.toNat ss)).2.1,
          finalizeCE fld (batchLoop m dec fld (chunkList bs.toNat ss)).2.2⟩
      | none =>
        ⟨(singleLoop m dec fld ss).1, (singleLoop m dec fld ss).2.1,
          finalizeCE fld (singleLoop m dec fld ss).2.2⟩ := by
  unfold computeEmbeddings
  rw [h1, h2, h4]
  rfl

/-! ### Claim C1 -/

/-- C1: as stated the claim is false; `cexC1_batch_ne_single` below
exhibits a deterministic, batch-size-independent model (the default
`embed_all`) on which the batched and single paths write different field
values.  This theorem proves the amended claim: for every deterministic
model whose `embed` returns a batch-axis-1 array `[v]` and whose
`embed_all` returns exactly the row-stack of the per-item single-image
embeddings (batch-size-independent inference *in the shape the batched
executor assumes*), `compute_embeddings` produces identical per-sample
outputs — final sample states and returned value — on the batched path
(any requested batch size ≥ 1) and the unbatched path. -/
theorem computeEmbeddings_batch_size_invariant {D Img α : Type}
    (m : PipeModel Img α) (dec : String → Img) (v : Img → Tensor α)
    (hv : ∀ i, m.embed i = .arr [v i])
    (hva : ∀ l, m.embedAll l = .arr (l.map v))
    (ss : List (Sample D α)) (fld : Option String) (bs : Int)
    (hbs : 1 ≤ bs) (d : Option Int) :
    (computeEmbeddings m dec .image ss fld (some bs) d).samples =
      (computeEmbeddings m dec .image ss fld none none).samples ∧
    (computeEmbeddings m dec .image ss fld (some bs) d).ret =
      (computeEmbeddings m dec .image ss fld none none).ret := by
  match h1 : m.isEmbMixin with
  | false => unfold computeEmbeddings; rw [h1]; exact ⟨rfl, rfl⟩
  | true =>
  match h2 : m.hasEmbeddings with
  | false => unfold computeEmbeddings; rw [h1, h2]; exact ⟨rfl, rfl⟩
  | true =>
  match h4 : m.isTorch with
  | true => unfold computeEmbeddings; rw [h1, h2, h4]; exact ⟨rfl, rfl⟩
  | false =>
  rw [computeEmbeddings_run m dec ss fld (some bs) d h1 h2 h4,
    computeEmbeddings_run m dec ss fld none none h1 h2 h4]
  have hres : (parseBatchSize none none m.raggedBatches).1 = none := rfl
  rw [hres]
  match hp : (parseBatchSize (some bs) d m.raggedBatches).1 with
  | none => exact ⟨rfl, rfl⟩
  | some k =>
    have hk : k = bs := by
      simp only [parseBatchSize, resolveBS] at hp
      split at hp
      · simp at hp
      · simp at hp; omega
    subst hk
    have hbn : 1 ≤ k.toNat := by omega
    dsimp only
    match fld with
    | some f =>
      rw [singleLoop_some_eq m dec f v hv,
        batchLoop_some_eq m dec f v hva]
      dsimp only
      refine ⟨?_, rfl⟩
      rw [chunkList_flatten k.toNat hbn]
    | none =>
      rw [singleLoop_none_eq m dec, batchLoop_none_eq m dec]
      dsimp only
      constructor
      · rw [chunkList_flatten k.toNat hbn]
      · rw [finalize_single_none m dec v hv,
          finalize_batch_none m dec v hva k.toNat hbn]

/-- A deterministic, batch-size-independent model that keeps the
documented default `embed_all` (stacking the `(1, d)`-shaped per-item
`embed` outputs along a new leading axis). -/
def cexModel : PipeModel Unit Nat :=
  { isEmbMixin := true, hasEmbeddings := true, isTorch := false,
    raggedBatches := false,
    embed := fun _ => .arr [.scalar 7],
    embedAll := defaultEmbedAll (fun _ => .arr [.scalar 7]) }

def cexDecode : String → Unit := fun _ => ()

def cexSample : Sample Unit Nat := ⟨0, "img0", none, []⟩

def cexSampleB : Sample Unit Nat := ⟨1, "img1", none, []⟩

def cexSampleC : Sample Unit Nat := ⟨2, "img2", none, []⟩

/-- A model satisfying the row-consistency the batched executor assumes:
`embed` returns `[v]` and `embed_all` returns the row-stack of the `v`s. -/
def invModel : PipeModel Unit Nat :=
  { isEmbMixin := true, hasEmbeddings := true, isTorch := false,
    raggedBatches := false,
    embed := fun _ => .arr [.scalar 5],
    embedAll := fun l => .arr (l.map (fun _ => .scalar 5)) }

/-- C1 counterexample: `cexModel` is deterministic and batch-size
independent (each item's embedding never depends on its batch), yet with
`batch_size=1` the batched path writes `embed(img)` (shape `(1,d)`) to the
field while the unbatched path writes `embed(img)[0]` (shape `(d,)`): the
final sample states differ. -/
theorem computeEmbeddings_batch_ne_single_cex :
    (computeEmbeddings cexModel cexDecode .image [cexSample] (some "emb")
        (some 1) none).samples ≠
      (computeEmbeddings cexModel cexDecode .image [cexSample] (some "emb")
        none none).samples := by decide

/-- C1 witness: the amended equivalence evaluated on a concrete
three-sample collection with requested batch size 2. -/
theorem computeEmbeddings_batch_size_invariant_witness :
    (1 : Int) ≤ 2 ∧
    ((computeEmbeddings invModel cexDecode .image
          [cexSample, cexSampleB, cexSampleC] (some "emb") (some 2)
          none).samples =
        (computeEmbeddings invModel cexDecode .image
          [cexSample, cexSampleB, cexSampleC] (some "emb") none
          none).samples ∧
      (computeEmbeddings invModel cexDecode .image
          [cexSample, cexSampleB, cexSampleC] (some "emb") (some 2)
          none).ret =
        (computeEmbeddings invModel cexDecode .image
          [cexSample, cexSampleB, cexSampleC] (some "emb") none
          none).ret) :=
  ⟨by norm_num,
    computeEmbeddings_batch_size_invariant invModel cexDecode
      (fun _ => .scalar 5) (fun _ => rfl) (fun _ => rfl)
      [cexSample, cexSampleB, cexSampleC] (some "emb") 2 (by norm_num) none⟩

/-! ### Claim C2 -/

/-- C2 counterexample: a requested batch size of 0 is returned unchanged
by `_parse_batch_size`, so the output is neither "no batching" nor a
concrete batch size ≥ 1. -/
theorem parseBatchSize_zero_cex :
    (parseBatchSize (some 0) none false).1 = some 0 ∧ ¬(1 ≤ (0 : Int)) := by
  decide

/-- C2 (amended): `_parse_batch_size` implements the negotiation policy —
(i) an absent request falls back to the process-wide default; (ii) a
resolved size > 1 on a ragged-batches model yields no batching with only
a non-fatal warning (the function is total, it never raises); (iii)
otherwise the resolved size is returned unchanged and no warning is
logged; and provided every resolved size is ≥ 1 (amendment: the code does
not validate the requested value, cf. the counterexample at 0), the
returned value is either `none` or a size ≥ 1. -/
theorem parseBatchSize_policy (b d : Option Int) (r : Bool) :
    (b = none → parseBatchSize b d r = parseBatchSize d d r) ∧
    (∀ k, resolveBS b d = some k → 1 < k → r = true →
      parseBatchSize b d r = (none, true)) ∧
    (∀ k, resolveBS b d = some k → ¬(1 < k ∧ r = true) →
      parseBatchSize b d r = (some k, false)) ∧
    (resolveBS b d = none → parseBatchSize b d r = (none, false)) ∧
    ((∀ k, resolveBS b d = some k → 1 ≤ k) →
      ∀ k, (parseBatchSize b d r).1 = some k → 1 ≤ k) := by
  refine ⟨?_, ?_, ?_, ?_, ?_⟩
  · intro hb; subst hb; cases d <;> rfl
  · intro k hk hgt hr
    simp [parseBatchSize, hk, hgt, hr]
  · intro k hk hc
    simp only [parseBatchSize, hk]
    rw [if_neg hc]
  · intro hnone
    simp [parseBatchSize, hnone]
  · intro hpos k hk
    unfold parseBatchSize at hk
    match hres : resolveBS b d with
    | none => rw [hres] at hk; exact absurd hk (by simp)
    | some j =>
      rw [hres] at hk
      dsimp only at hk
      have hj := hpos j hres
      by_cases hc : 1 < j ∧ r = true
      · rw [if_pos hc] at hk; exact absurd hk (by simp)
      · rw [if_neg hc] at hk
        simp only [Prod.fst] at hk
        have : j = k := by
          have := hk
          injection this with h
        omega

/-- C2 witness: the ragged-batches fallback evaluated at a concrete
request of 2 on a ragged model. -/
theorem parseBatchSize_policy_witness :
    parseBatchSize (some 2) none true = (none, true) :=
  (parseBatchSize_policy (some 2) none true).2.1 2 rfl (by norm_num) rfl

/-! ### Claim C3 -/

/-- C3 counterexample: on an empty collection with
`embeddings_field=None`, `compute_embeddings` raises `ValueError` from
`np.concatenate([])` instead of returning an array with first dimension
0. -/
theorem computeEmbeddings_empty_cex :
    (computeEmbeddings cexModel cexDecode .image
        ([] : List (Sample Unit Nat)) none none none).ret =
      .raised (.np .concatEmpty) ∧
    (computeEmbeddings cexModel cexDecode .image
        ([] : List (Sample Unit Nat)) none none none).ret ≠
      .ok (some (.arr [])) := by decide

/-- C3 (amended): for every *nonempty* collection and row-consistent
deterministic model, `compute_embeddings` with `embeddings_field=None`
returns an array whose rows are the per-sample embeddings in input
iteration order (first dimension = number of samples); with an
`embeddings_field` it returns None.  On an empty collection the
field-mode contract still holds, but the return-mode call raises
`ValueError` (see the counterexample). -/
theorem computeEmbeddings_returns_stacked {D Img α : Type}
    (m : PipeModel Img α) (dec : String → Img) (v : Img → Tensor α)
    (hv : ∀ i, m.embed i = .arr [v i])
    (hva : ∀ l, m.embedAll l = .arr (l.map v))
    (h1 : m.isEmbMixin = true) (h2 : m.hasEmbeddings = true)
    (h4 : m.isTorch = false) (ss : List (Sample D α)) (hne : ss ≠ [])
    (req d : Option Int)
    (hreq : ∀ k, (parseBatchSize req d m.raggedBatches).1 = some k → 1 ≤ k) :
    (computeEmbeddings m dec .image ss none req d).ret =
      .ok (some (.arr (ss.map (fun s => v (dec s.filepath))))) ∧
    ∀ f, (computeEmbeddings m dec .image ss (some f) req d).ret =
      .ok none := by
  constructor
  · rw [computeEmbeddings_run m dec ss none req d h1 h2 h4]
    match hp : (parseBatchSize req d m.raggedBatches).1 with
    | none =>
      dsimp only
      rw [singleLoop_none_eq m dec]
      dsimp only
      rw [finalize_single_none m dec v hv]
      match ss, hne with
      | s :: rest, _ => rfl
    | some k =>
      have hbn : 1 ≤ k.toNat := by have := hreq k hp; omega
      dsimp only
      rw [batchLoop_none_eq m dec]
      dsimp only
      rw [finalize_batch_none m dec v hva k.toNat hbn]
      match ss, hne with
      | s :: rest, _ => rfl
  · intro f
    rw [computeEmbeddings_run m dec ss (some f) req d h1 h2 h4]
    match hp : (parseBatchSize req d m.raggedBatches).1 with
    | none =>
      dsimp only
      rw [singleLoop_some_eq m dec f v hv]
      rfl
    | some k =>
      dsimp only
      rw [batchLoop_some_eq m dec f v hva]
      rfl

/-- C3 witness: the amended statement evaluated on a concrete one-sample
collection (unbatched negotiation). -/
theorem computeEmbeddings_returns_stacked_witness :
    ([cexSample] ≠ ([] : List (Sample Unit Nat))) ∧
    ((computeEmbeddings invModel cexDecode .image [cexSample] none none
          none).ret =
        .ok (some (.arr ([cexSample].map
          (fun s => (fun _ => Tensor.scalar 5) (cexDecode s.filepath))))) ∧
      ∀ f, (computeEmbeddings invModel cexDecode .image [cexSample] (some f)
          none none).ret = .ok none) :=
  ⟨by decide,
    computeEmbeddings_returns_stacked invModel cexDecode (fun _ => .scalar 5)
      (fun _ => rfl) (fun _ => rfl) rfl rfl rfl [cexSample] (by decide)
      none none (fun k hk => Option.noConfusion hk)⟩

/-! ### Claim C4 -/

/-- A model lacking the embeddings capability. -/
def noCapModel : PipeModel Unit Nat :=
  { isEmbMixin := false, hasEmbeddings := false, isTorch := false,
    raggedBatches := false,
    embed := fun _ => .scalar 0,
    embedAll := fun _ => .scalar 0 }

def cexExtract : Unit → Unit → Bool → Option ℚ → Unit := fun _ _ _ _ => ()

/-- C4: capability mismatches (model not an `EmbeddingsMixin`, or
`has_embeddings` false) in `compute_embeddings` and
`compute_patch_embeddings`, and media-type mismatches in
`compute_patch_embeddings`, raise with an empty effect trace (no sample
iterated, no media decoded, no field written) and the samples returned
unchanged — zero partial side effects. -/
theorem capability_checks_fail_fast {D Img α : Type} (m : PipeModel Img α)
    (dec : String → Img) (extract : Img → D → Bool → Option ℚ → Img)
    (mt : MediaType) (ss : List (Sample D α)) (fld : Option String)
    (bsk d : Option Int) (fsq : Bool) (alpha : Option ℚ) :
    ((m.isEmbMixin = false ∨ m.hasEmbeddings = false) →
      computeEmbeddings m dec mt ss fld bsk d =
        ⟨ss, [], .raised .capabilityMismatch⟩) ∧
    ((m.isEmbMixin = false ∨ m.hasEmbeddings = false) → mt = .image →
      computePatchEmbeddings m dec extract mt ss fld bsk d fsq alpha =
        ⟨ss, [], .raised .capabilityMismatch⟩) ∧
    (mt ≠ .image →
      computePatchEmbeddings m dec extract mt ss fld bsk d fsq alpha =
        ⟨ss, [], .raised .mediaTypeMismatch⟩) := by
  refine ⟨?_, ?_, ?_⟩
  · rintro (hc | hc)
    · unfold computeEmbeddings; rw [hc]; rfl
    · match hmx : m.isEmbMixin with
      | false => unfold computeEmbeddings; rw [hmx]; rfl
      | true => unfold computeEmbeddings; rw [hmx, hc]; rfl
  · rintro hc hmt
    subst hmt
    rcases hc with hc | hc
    · unfold computePatchEmbeddings; rw [hc]; rfl
    · match hmx : m.isEmbMixin with
      | false => unfold computePatchEmbeddings; rw [hmx]; rfl
      | true => unfold computePatchEmbeddings; rw [hmx, hc]; rfl
  · intro hmt
    unfold computePatchEmbeddings
    rw [if_pos hmt]

/-- C4 witness: evaluated on a capability-less model over one sample, and
on a video collection for the media-type check. -/
theorem capability_checks_fail_fast_witness :
    computeEmbeddings noCapModel cexDecode .image [cexSample] none none
        none = ⟨[cexSample], [], .raised .capabilityMismatch⟩ ∧
    computePatchEmbeddings noCapModel cexDecode cexExtract .image
        [cexSample] none none none false none =
      ⟨[cexSample], [], .raised .capabilityMismatch⟩ ∧
    computePatchEmbeddings noCapModel cexDecode cexExtract .video
        [cexSample] none none none false none =
      ⟨[cexSample], [], .raised .mediaTypeMismatch⟩ :=
  ⟨(capability_checks_fail_fast noCapModel cexDecode cexExtract .image
      [cexSample] none none none false none).1 (Or.inl rfl),
    (capability_checks_fail_fast noCapModel cexDecode cexExtract .image
      [cexSample] none none none false none).2.1 (Or.inl rfl) rfl,
    (capability_checks_fail_fast noCapModel cexDecode cexExtract .video
      [cexSample] none none none false none).2.2 (by decide)⟩

/-! ### Patch-loop structure lemmas -/

theorem patchLoop_append {D Img α : Type} (m : PipeModel Img α)
    (dec : String → Img) (extract : Img → D → Bool → Option ℚ → Img)
    (fld : Option String) (fsq : Bool) (alpha : Option ℚ)
    (bsOpt : Option Nat) (xs ys : List (Sample D α)) :
    patchLoop m dec extract fld fsq alpha bsOpt (xs ++ ys) =
      match patchLoop m dec extract fld fsq alpha bsOpt xs,
          patchLoop m dec extract fld fsq alpha bsOpt ys with
      | (sx, tx, .error e), _ => (sx ++ ys, tx, .error e)
      | (sx, tx, .ok dx), (sy, ty, ry) =>
        (sx ++ sy, tx ++ ty, ry.map (dx ++ ·)) := by
  induction xs with
  | nil =>
    rcases hy : patchLoop m dec extract fld fsq alpha bsOpt ys with ⟨sy, ty, ry⟩
    cases ry <;> simp [patchLoop, hy, Except.map]
  | cons p xs ih =>
    rcases hx : patchLoop m dec extract fld fsq alpha bsOpt xs with ⟨sx, tx, rx⟩
    rcases hy : patchLoop m dec extract fld fsq alpha bsOpt ys with ⟨sy, ty, ry⟩
    rw [hx, hy] at ih
    cases hp : parsePatches p.patches with
    | none =>
      cases rx <;> cases ry <;>
        simp_all [patchLoop, hp, Except.map]
    | some dets =>
      cases dets with
      | nil =>
        cases rx <;> cases ry <;>
          simp_all [patchLoop, hp, Except.map]
      | cons d ds =>
        cases he : embedPatchesDispatch m extract (dec p.filepath) fsq alpha
            bsOpt (d :: ds) with
        | error e =>
          cases rx <;> cases ry <;>
            simp_all [patchLoop, hp, he, Except.map]
        | ok emb =>
          cases fld with
          | none =>
            cases rx <;> cases ry <;>
              simp_all [patchLoop, hp, he, Except.map]
          | some f =>
            cases rx <;> cases ry <;>
              simp_all [patchLoop, hp, he, Except.map]

/-- A sample whose patches field resolves to no detections is passed
through untouched: no effect, no mapping entry, no error. -/
theorem patchLoop_skip_singleton {D Img α : Type} (m : PipeModel Img α)
    (dec : String → Img) (extract : Img → D → Bool → Option ℚ → Img)
    (fld : Option String) (fsq : Bool) (alpha : Option ℚ)
    (bsOpt : Option Nat) (s : Sample D α)
    (hskip : parsePatches s.patches = none ∨
      parsePatches s.patches = some []) :
    patchLoop m dec extract fld fsq alpha bsOpt [s] = ([s], [], .ok []) := by
  rcases hskip with h | h <;> simp [patchLoop, h]

theorem patchLoop_length {D Img α : Type} (m : PipeModel Img α)
    (dec : String → Img) (extract : Img → D → Bool → Option ℚ → Img)
    (fld : Option String) (fsq : Bool) (alpha : Option ℚ)
    (bsOpt : Option Nat) (ss : List (Sample D α)) :
    (patchLoop m dec extract fld fsq alpha bsOpt ss).1.length = ss.length := by
  induction ss with
  | nil => rfl
  | cons s rest ih =>
    cases hp : parsePatches s.patches with
    | none => simp [patchLoop, hp, ih]
    | some dets =>
      cases dets with
      | nil => simp [patchLoop, hp, ih]
      | cons d ds =>
        cases he : embedPatchesDispatch m extract (dec s.filepath) fsq alpha
            bsOpt (d :: ds) with
        | error e => simp [patchLoop, hp, he]
        | ok emb =>
          cases fld with
          | none => simp [patchLoop, hp, he, ih]
          | some f => simp [patchLoop, hp, he, ih]

/-- Every id in the returned mapping is the id of some input sample. -/
theorem patchLoop_dict_ids {D Img α : Type} (m : PipeModel Img α)
    (dec : String → Img) (extract : Img → D → Bool → Option ℚ → Img)
    (fld : Option String) (fsq : Bool) (alpha : Option ℚ)
    (bsOpt : Option Nat) :
    ∀ (ss : List (Sample D α)) (dict : List (Nat × Tensor α)),
      (patchLoop m dec extract fld fsq alpha bsOpt ss).2.2 = .ok dict →
      ∀ q ∈ dict, q.1 ∈ ss.map Sample.id := by
  intro ss
  induction ss with
  | nil =>
    intro dict h q hq
    simp only [patchLoop] at h
    injection h with h
    subst h
    simp at hq
  | cons s rest ih =>
    intro dict h q hq
    rcases hr : patchLoop m dec extract fld fsq alpha bsOpt rest
      with ⟨sr, tr, rr⟩
    rw [hr] at ih
    simp only [List.map_cons, List.mem_cons]
    cases hp : parsePatches s.patches with
    | none =>
      rw [patchLoop, hp, hr] at h
      exact Or.inr (ih dict h q hq)
    | some dets =>
      cases dets with
      | nil =>
        rw [patchLoop, hp, hr] at h
        exact Or.inr (ih dict h q hq)
      | cons d ds =>
        cases he : embedPatchesDispatch m extract (dec s.filepath) fsq alpha
            bsOpt (d :: ds) with
        | error e =>
          rw [patchLoop, hp] at h
          dsimp only at h
          rw [he] at h
          exact absurd h (by simp)
        | ok emb =>
          cases fld with
          | some f =>
            rw [patchLoop, hp] at h
            dsimp only at h
            rw [he, hr] at h
            exact Or.inr (ih dict h q hq)
          | none =>
            rw [patchLoop, hp] at h
            dsimp only at h
            rw [he, hr] at h
            cases rr with
            | error e => exact absurd h (by simp [Except.map])
            | ok dr =>
              simp only [Except.map] at h
              injection h with h
              subst h
              rcases List.mem_cons.mp hq with hq | hq
              · subst hq; exact Or.inl rfl
              · exact Or.inr (ih dr rfl q hq)

/-- Lookup in the sample-ID-keyed mapping. -/
def dictLookup {β : Type} (i : Nat) : List (Nat × β) → Option β
  | [] => none
  | q :: rest => if q.1 = i then some q.2 else dictLookup i rest

theorem dictLookup_eq_none {β : Type} (i : Nat) (l : List (Nat × β))
    (h : ∀ q ∈ l, q.1 ≠ i) : dictLookup i l = none := by
  induction l with
  | nil => rfl
  | cons q rest ih =>
    rw [dictLookup, if_neg (h q (List.mem_cons_self q rest))]
    exact ih (fun p hp => h p (List.mem_cons_of_mem q hp))

/-- Dispatch of `compute_patch_embeddings` once the media-type and
capability checks pass and the Torch branch is not taken. -/
theorem computePatchEmbeddings_run {D Img α : Type} (m : PipeModel Img α)
    (dec : String → Img) (extract : Img → D → Bool → Option ℚ → Img)
    (ss : List (Sample D α)) (fld : Option String) (bsk d : Option Int)
    (fsq : Bool) (alpha : Option ℚ) (h1 : m.isEmbMixin = true)
    (h2 : m.hasEmbeddings = true) (h4 : m.isTorch = false) :
    computePatchEmbeddings m dec extract .image ss fld bsk d fsq alpha =
      match (patchLoop m dec extract fld fsq alpha
          (((parseBatchSize bsk d m.raggedBatches).1).map Int.toNat) ss).2.2,
        patchLoop m dec extract fld fsq alpha
          (((parseBatchSize bsk d m.raggedBatches).1).map Int.toNat) ss with
      | .error e, r => ⟨r.1, r.2.1, .raised e⟩
      | .ok dict, r =>
        match fld with
        | some _ => ⟨r.1, r.2.1, .ok none⟩
        | none => ⟨r.1, r.2.1, .ok (some dict)⟩ := by
  unfold computePatchEmbeddings
  rw [if_neg (fun hh => hh rfl), h1, h2, h4]
  rcases hr : patchLoop m dec extract fld fsq alpha
      (((parseBatchSize bsk d m.raggedBatches).1).map Int.toNat) ss
    with ⟨sr, tr, rr⟩
  dsimp only
  rw [hr]
  cases rr <;> rfl

/-! ### Claim C5 -/

/-- C5: a sample whose patches field resolves to no detections (the field
is absent/None, or resolves to an empty detections list) contributes
nothing to `compute_patch_embeddings`: the effect trace and the returned
value are exactly those of the run without that sample (no decode, no
field write, no error, the remaining samples processed as before), the
sample itself is returned unchanged in its position, and — when its id is
not shared — the returned mapping has no entry under its id. -/
theorem computePatchEmbeddings_skips_empty {D Img α : Type}
    (m : PipeModel Img α) (dec : String → Img)
    (extract : Img → D → Bool → Option ℚ → Img)
    (pre post : List (Sample D α)) (s : Sample D α)
    (hskip : parsePatches s.patches = none ∨
      parsePatches s.patches = some [])
    (hfresh : ∀ t ∈ pre ++ post, t.id ≠ s.id)
    (h1 : m.isEmbMixin = true) (h2 : m.hasEmbeddings = true)
    (h4 : m.isTorch = false) (fld : Option String) (bsk d : Option Int)
    (fsq : Bool) (alpha : Option ℚ) :
    (computePatchEmbeddings m dec extract .image (pre ++ s :: post) fld bsk
        d fsq alpha).trace =
      (computePatchEmbeddings m dec extract .image (pre ++ post) fld bsk d
        fsq alpha).trace ∧
    (computePatchEmbeddings m dec extract .image (pre ++ s :: post) fld bsk
        d fsq alpha).ret =
      (computePatchEmbeddings m dec extract .image (pre ++ post) fld bsk d
        fsq alpha).ret ∧
    (computePatchEmbeddings m dec extract .image (pre ++ s :: post) fld bsk
        d fsq alpha).samples =
      (computePatchEmbeddings m dec extract .image (pre ++ post) fld bsk d
          fsq alpha).samples.take pre.length ++
        s :: (computePatchEmbeddings m dec extract .image (pre ++ post) fld
          bsk d fsq alpha).samples.drop pre.length ∧
    (∀ dict,
      (computePatchEmbeddings m dec extract .image (pre ++ s :: post) fld
        bsk d fsq alpha).ret = .ok (some dict) →
      dictLookup s.id dict = none) := by
  rw [computePatchEmbeddings_run m dec extract (pre ++ s :: post) fld bsk d
      fsq alpha h1 h2 h4,
    computePatchEmbeddings_run m dec extract (pre ++ post) fld bsk d fsq
      alpha h1 h2 h4]
  rw [show pre ++ s :: post = pre ++ ([s] ++ post) from rfl]
  rw [patchLoop_append m dec extract fld fsq alpha _ pre ([s] ++ post),
    patchLoop_append m dec extract fld fsq alpha _ ([s]) post,
    patchLoop_append m dec extract fld fsq alpha _ pre post,
    patchLoop_skip_singleton m dec extract fld fsq alpha _ s hskip]
  rcases hp : patchLoop m dec extract fld fsq alpha
      (((parseBatchSize bsk d m.raggedBatches).1).map Int.toNat) pre
    with ⟨sp, tp, rp⟩
  rcases ho : patchLoop m dec extract fld fsq alpha
      (((parseBatchSize bsk d m.raggedBatches).1).map Int.toNat) post
    with ⟨so, tq, ro⟩
  have hplen : sp.length = pre.length := by
    have := patchLoop_length m dec extract fld fsq alpha
      (((parseBatchSize bsk d m.raggedBatches).1).map Int.toNat) pre
    rw [hp] at this
    exact this
  have hdictpre : ∀ dx, rp = .ok dx → ∀ q ∈ dx, q.1 ≠ s.id := by
    intro dx hdx q hq
    have hmem := patchLoop_dict_ids m dec extract fld fsq alpha _ pre dx
      (by rw [hp, hdx]) q hq
    rcases List.mem_map.mp hmem with ⟨t, ht, hts⟩
    exact fun hcontra => hfresh t (List.mem_append_left post ht)
      (by rw [hts, hcontra])
  have hdictpost : ∀ dy, ro = .ok dy → ∀ q ∈ dy, q.1 ≠ s.id := by
    intro dy hdy q hq
    have hmem := patchLoop_dict_ids m dec extract fld fsq alpha _ post dy
      (by rw [ho, hdy]) q hq
    rcases List.mem_map.mp hmem with ⟨t, ht, hts⟩
    exact fun hcontra => hfresh t (List.mem_append_right pre ht)
      (by rw [hts, hcontra])
  cases rp with
  | error e =>
    refine ⟨rfl, rfl, ?_, ?_⟩
    · dsimp only
      rw [← hplen, List.take_left, List.drop_left]
      exact rfl
    · intro dict hd
      exact absurd hd (by simp)
  | ok dx =>
    cases ro with
    | error e =>
      refine ⟨rfl, rfl, ?_, ?_⟩
      · dsimp only [Except.map]
        rw [← hplen, List.take_left, List.drop_left]
        exact rfl
      · intro dict hd
        exact absurd hd (by simp [Except.map])
    | ok dy =>
      cases fld with
      | some f =>
        refine ⟨rfl, rfl, ?_, ?_⟩
        · dsimp only [Except.map]
          rw [← hplen, List.take_left, List.drop_left]
          exact rfl
        · intro dict hd
          exact absurd hd (by simp [Except.map])
      | none =>
        refine ⟨rfl, rfl, ?_, ?_⟩
        · dsimp only [Except.map]
          rw [← hplen, List.take_left, List.drop_left]
          exact rfl
        · intro dict hd
          dsimp only [Except.map] at hd
          injection hd with hd
          injection hd with hd
          subst hd
          refine dictLookup_eq_none s.id (dx ++ ([] ++ dy)) ?_
          intro q hq
          rcases List.mem_append.mp hq with hq | hq
          · exact hdictpre dx rfl q hq
          · exact hdictpost dy rfl q (by simpa using hq)

/-- C5 witness: a two-sample collection whose second sample has no
patches field; evaluated concretely. -/
theorem computePatchEmbeddings_skips_empty_witness :
    (computePatchEmbeddings invModel cexDecode cexExtract .image
        [cexSampleB, cexSample] none none none false none).trace =
      (computePatchEmbeddings invModel cexDecode cexExtract .image
        [cexSampleB] none none none false none).trace ∧
    (computePatchEmbeddings invModel cexDecode cexExtract .image
        [cexSampleB, cexSample] none none none false none).ret =
      (computePatchEmbeddings invModel cexDecode cexExtract .image
        [cexSampleB] none none none false none).ret ∧
    (computePatchEmbeddings invModel cexDecode cexExtract .image
        [cexSampleB, cexSample] none none none false none).samples =
      (computePatchEmbeddings invModel cexDecode cexExtract .image
          [cexSampleB] none none none false none).samples.take 1 ++
        cexSample :: (computePatchEmbeddings invModel cexDecode cexExtract
          .image [cexSampleB] none none none false none).samples.drop 1 ∧
    (∀ dict,
      (computePatchEmbeddings invModel cexDecode cexExtract .image
          [cexSampleB, cexSample] none none none false none).ret =
        .ok (some dict) →
      dictLookup cexSample.id dict = none) :=
  computePatchEmbeddings_skips_empty invModel cexDecode cexExtract
    [cexSampleB] [] cexSample (Or.inl rfl) (by decide) rfl rfl rfl none
    none none false none

/-! ### Claim C7 -/

/-- C7: in the batched patch path, `_embed_patches_batch` partitions one
sample's detections, in order, into contiguous batches of at most
`batch_size` (each batch nonempty, the last possibly shorter), hands each
batch of patches — all extracted from that single sample's image and
detections — to one `embed_all` call, and concatenates the per-batch
results in order.  The batched dispatch in `compute_patch_embeddings`
invokes exactly this function per sample. -/
theorem embedPatchesBatch_per_sample {D Img α : Type}
    (m : PipeModel Img α) (extract : Img → D → Bool → Option ℚ → Img)
    (img : Img) (fsq : Bool) (alpha : Option ℚ) (dets : List D) (bs : Nat)
    (hbs : 1 ≤ bs) :
    embedPatchesBatch m extract img fsq alpha bs dets =
      npConcat ((chunkList bs dets).map
        (fun batch =>
          m.embedAll (batch.map (fun d2 => extract img d2 fsq alpha)))) ∧
    (chunkList bs dets).flatten = dets ∧
    (∀ c ∈ chunkList bs dets, c.length ≤ bs ∧ c ≠ []) ∧
    embedPatchesDispatch m extract img fsq alpha (some bs) dets =
      embedPatchesBatch m extract img fsq alpha bs dets :=
  ⟨rfl, chunkList_flatten bs hbs dets,
    fun c hc => chunkList_mem bs hbs dets c hc, rfl⟩

def natExtract : Unit → Nat → Bool → Option ℚ → Unit := fun _ _ _ _ => ()

/-- C7 witness: five detections with batch size 2 → batches of sizes
2, 2, 1 in order. -/
theorem embedPatchesBatch_per_sample_witness :
    (1 ≤ 2 ∧
      chunkList 2 [0, 1, 2, 3, 4] = [[0, 1], [2, 3], [4]]) ∧
    (embedPatchesBatch invModel natExtract () false none 2
        [0, 1, 2, 3, 4] =
      npConcat ((chunkList 2 [0, 1, 2, 3, 4]).map
        (fun batch =>
          invModel.embedAll (batch.map
            (fun d2 => natExtract () d2 false none)))) ∧
      (chunkList 2 [0, 1, 2, 3, 4]).flatten = [0, 1, 2, 3, 4] ∧
      (∀ c ∈ chunkList 2 [0, 1, 2, 3, 4], c.length ≤ 2 ∧ c ≠ []) ∧
      embedPatchesDispatch invModel natExtract () false
          none (some 2) [0, 1, 2, 3, 4] =
        embedPatchesBatch invModel natExtract () false none
          2 [0, 1, 2, 3, 4]) :=
  ⟨⟨by norm_num, by decide⟩,
    embedPatchesBatch_per_sample invModel natExtract ()
      false none [0, 1, 2, 3, 4] 2 (by norm_num)⟩

/-! ### Claim C6 -/

/-- C6: for an `EmbeddingsMixin` model with the default implementations,
`embed(arg)` is exactly `predict(arg)` followed by `get_embeddings()`, and
— for a model whose last-pass embedding depends only on the argument
(deterministic inference) — `embed_all(args)` is the per-item `embed`
results stacked along a new leading axis, in input order. -/
theorem embeddingsMixin_defaults {I α σ : Type} (m : MixinModel I α σ)
    (e : I → Tensor α)
    (hdet : ∀ (st : σ) (arg : I), m.getEmbeddings (m.predict st arg) = e arg) :
    (∀ (st : σ) (arg : I),
      m.embed st arg =
        (m.predict st arg, m.getEmbeddings (m.predict st arg))) ∧
    (∀ (st : σ) (args : List I),
      (m.embedAll st args).2 = npStack (args.map e)) := by
  refine ⟨fun st arg => rfl, fun st args => ?_⟩
  have h : ∀ st2, (m.embedSeq st2 args).2 = args.map e := by
    induction args with
    | nil => intro st2; rfl
    | cons a as ih =>
      intro st2
      simp [MixinModel.embedSeq, MixinModel.embed, hdet, ih]
  exact congrArg npStack (h st)

/-- A concrete mixin model: the state is the last argument seen, the
embedding of the last pass is `[state]`. -/
def mixModel : MixinModel Nat Nat Nat :=
  { predict := fun _ a => a,
    getEmbeddings := fun st => .arr [.scalar st] }

/-- C6 witness: the defaults evaluated on a concrete model, state and
arguments. -/
theorem embeddingsMixin_defaults_witness :
    mixModel.embed 0 42 =
      (mixModel.predict 0 42, mixModel.getEmbeddings (mixModel.predict 0 42)) ∧
    (mixModel.embedAll 0 [1, 2]).2 =
      npStack ([1, 2].map (fun a => Tensor.arr [Tensor.scalar a])) :=
  ⟨(embeddingsMixin_defaults mixModel (fun a => .arr [.scalar a])
      (fun _ _ => rfl)).1 0 42,
    (embeddingsMixin_defaults mixModel (fun a => .arr [.scalar a])
      (fun _ _ => rfl)).2 0 [1, 2]⟩

/-! ### Claim C8 -/

/-- C8: patch extraction with `alpha` absent, and likewise with
`alpha = 0` on a valid normalized box, reproduces exactly the pixel
region of the original bounding box (round-trip identity); and for the
spec's concrete scenario — normalized box `[0.1, 0.1, 0.2, 0.2]` in a
100×100 image, `force_square = False` — the extraction box in pixels is
`(10, 10, 20, 20)`. -/
theorem extractPatchBox_alpha_identity (W H : ℤ) (b : BBox)
    (hb : b.valid) :
    extractPatchBox W H false none b = toPixelBox W H b ∧
    extractPatchBox W H false (some 0) b = toPixelBox W H b ∧
    extractPatchBox 100 100 false none ⟨1/10, 1/10, 2/10, 2/10⟩ =
      (10, 10, 20, 20) := by
  refine ⟨rfl, ?_, by norm_num [extractPatchBox, toPixelBox]⟩
  have hpad : padRelative 0 b = b := by
    rcases b with ⟨x, y, w, h⟩
    simp only [BBox.valid] at hb
    obtain ⟨hx, hy, hw, hh, hxw, hyh⟩ := hb
    simp only [padRelative]
    have hww : (1 + (0 : ℚ)) * w = w := by ring
    have hhh : (1 + (0 : ℚ)) * h = h := by ring
    rw [hww, hhh]
    have hx2 : x + (w - w) / 2 = x := by ring
    have hy2 : y + (h - h) / 2 = y := by ring
    rw [hx2, hy2]
    rw [max_eq_right hx, max_eq_right hy,
      min_eq_right hxw, min_eq_right hyh]
    simp
  show toPixelBox W H (padRelative 0 b) = toPixelBox W H b
  rw [hpad]

/-- C8 witness: the identity and the concrete scenario evaluated at the
scenario's (valid) box. -/
theorem extractPatchBox_alpha_identity_witness :
    BBox.valid ⟨1/10, 1/10, 2/10, 2/10⟩ ∧
    (extractPatchBox 100 100 false none ⟨1/10, 1/10, 2/10, 2/10⟩ =
        toPixelBox 100 100 ⟨1/10, 1/10, 2/10, 2/10⟩ ∧
      extractPatchBox 100 100 false (some 0) ⟨1/10, 1/10, 2/10, 2/10⟩ =
        toPixelBox 100 100 ⟨1/10, 1/10, 2/10, 2/10⟩ ∧
      extractPatchBox 100 100 false none ⟨1/10, 1/10, 2/10, 2/10⟩ =
        (10, 10, 20, 20)) :=
  ⟨by norm_num [BBox.valid],
    extractPatchBox_alpha_identity 100 100 ⟨1/10, 1/10, 2/10, 2/10⟩
      (by norm_num [BBox.valid])⟩

/-! ### Claim C10 -/

theorem takeDistinctFrom_sublist (seen : List String) :
    ∀ (ps : List VocImage) (p : VocImage),
      p ∈ takeDistinctFrom seen ps → p ∈ ps := by
  intro ps
  induction ps generalizing seen with
  | nil => intro p hp; simp [takeDistinctFrom] at hp
  | cons q rest ih =>
    intro p hp
    rw [takeDistinctFrom] at hp
    split at hp
    · simp at hp
    · rcases List.mem_cons.mp hp with h | h
      · exact h ▸ List.mem_cons_self q rest
      · exact List.mem_cons_of_mem q (ih _ p h)

theorem takeDistinctFrom_all (seen : List String) (ps : List VocImage)
    (hn : (ps.map VocImage.name).Nodup)
    (hd : ∀ n ∈ ps.map VocImage.name, n ∉ seen) :
    takeDistinctFrom seen ps = ps := by
  induction ps generalizing seen with
  | nil => rfl
  | cons q rest ih =>
    rw [takeDistinctFrom,
      if_neg (hd q.name (by simp))]
    simp only [List.map_cons, List.nodup_cons] at hn
    refine congrArg (q :: ·) (ih (q.name :: seen) hn.2 ?_)
    intro n hn2 hmem
    rcases List.mem_cons.mp hmem with h | h
    · exact hn.1 (h ▸ hn2)
    · exact hd n (List.mem_cons_of_mem _ hn2) h

theorem exportGo_fst (ps : List VocImage) :
    ∀ seen : List String,
      (exportGo seen ps).1 = (takeDistinctFrom seen ps).flatMap
        (fun p => [p.name ++ p.ext, p.name ++ ".xml"]) := by
  induction ps with
  | nil => intro seen; rfl
  | cons p rest ih =>
    intro seen
    by_cases hmem : p.name ∈ seen
    · have hc : 0 < seen.count p.name := List.count_pos_iff.mpr hmem
      rw [exportGo, if_pos (by omega), takeDistinctFrom, if_pos hmem]
      rfl
    · have hc : seen.count p.name = 0 := List.count_eq_zero.mpr hmem
      rw [exportGo, if_neg (by omega), takeDistinctFrom, if_neg hmem]
      simp only [List.flatMap_cons]
      rw [ih (p.name :: seen)]
      rfl

theorem exportGo_snd (ps : List VocImage) :
    ∀ seen : List String,
      ((exportGo seen ps).2 = false ↔
        ((ps.map VocImage.name).Nodup ∧
          ∀ n ∈ ps.map VocImage.name, n ∉ seen)) := by
  induction ps with
  | nil =>
    intro seen
    simp [exportGo]
  | cons p rest ih =>
    intro seen
    by_cases hmem : p.name ∈ seen
    · have hc : 0 < seen.count p.name := List.count_pos_iff.mpr hmem
      rw [exportGo, if_pos (by omega)]
      simp only [List.map_cons, List.nodup_cons]
      constructor
      · intro h; exact absurd h (by simp)
      · rintro ⟨-, hall⟩
        exact absurd hmem (hall p.name (by simp))
    · have hc : seen.count p.name = 0 := List.count_eq_zero.mpr hmem
      rw [exportGo, if_neg (by omega)]
      have hrec := ih (p.name :: seen)
      rcases hr : exportGo (p.name :: seen) rest with ⟨outs, err⟩
      rw [hr] at hrec
      simp only at hrec ⊢
      rw [hrec]
      simp only [List.map_cons, List.nodup_cons, List.mem_cons]
      constructor
      · rintro ⟨hnd, hall⟩
        refine ⟨⟨fun hp => hall p.name hp (Or.inl rfl), hnd⟩, ?_⟩
        rintro n (h | h)
        · subst h; exact hmem
        · exact fun hs => hall n h (Or.inr hs)
      · rintro ⟨⟨hpn, hnd⟩, hall⟩
        refine ⟨hnd, ?_⟩
        rintro n hn (h | h)
        · exact hpn (h ▸ hn)
        · exact hall n (Or.inr hn) h

/-- C10: `export_voc_detection_dataset` never creates a renamed
(dedup-suffixed) copy.  The outputs are exactly, in order, the original
`name+ext` image copy and `name.xml` annotation of the longest
duplicate-free prefix of the inputs; the run raises (`true` flag: the
`name += "-%d" + count` string+int `TypeError`) iff some base filename
repeats, aborting at the second occurrence; if all base filenames are
distinct every image is copied under its original name with no error;
and every output filename is an original `name+ext` or `name.xml` of
some input — never a dedup-suffixed name. -/
theorem exportVoc_duplicate_behavior (paths : List VocImage) :
    (exportVoc paths).1 = (takeDistinctFrom [] paths).flatMap
      (fun p => [p.name ++ p.ext, p.name ++ ".xml"]) ∧
    ((exportVoc paths).2 = true ↔ ¬(paths.map VocImage.name).Nodup) ∧
    ((paths.map VocImage.name).Nodup →
      (exportVoc paths).1 = paths.flatMap
          (fun p => [p.name ++ p.ext, p.name ++ ".xml"]) ∧
        (exportVoc paths).2 = false) ∧
    (∀ o ∈ (exportVoc paths).1, ∃ p, p ∈ paths ∧
      (o = p.name ++ p.ext ∨ o = p.name ++ ".xml")) := by
  unfold exportVoc
  have hfst := exportGo_fst paths []
  have hsnd := exportGo_snd paths []
  refine ⟨hfst, ?_, ?_, ?_⟩
  · rw [show ((exportGo [] paths).2 = true) ↔
          ¬((exportGo [] paths).2 = false)
        by cases (exportGo [] paths).2 <;> simp]
    rw [show ((exportGo [] paths).2 = false ↔
          (paths.map VocImage.name).Nodup) from by
        rw [hsnd]; simp]
  · intro hn
    constructor
    · rw [hfst, takeDistinctFrom_all [] paths hn (by simp)]
    · rw [hsnd]
      exact ⟨hn, by simp⟩
  · intro o ho
    rw [hfst] at ho
    rcases List.mem_flatMap.mp ho with ⟨p, hp, hop⟩
    refine ⟨p, takeDistinctFrom_sublist [] paths p hp, ?_⟩
    rcases List.mem_cons.mp hop with h | h
    · exact Or.inl h
    · exact Or.inr (by simpa using h)

def dupPaths : List VocImage :=
  [⟨"a", ".jpg"⟩, ⟨"b", ".png"⟩, ⟨"a", ".png"⟩]

/-- C10 witness: a duplicate base filename `a` — the exporter writes
`a.jpg`, `a.xml`, `b.png`, `b.xml` and then raises at the second `a`,
creating no `-N`-suffixed file. -/
theorem exportVoc_duplicate_behavior_witness :
    (exportVoc dupPaths).2 = true ∧
    (exportVoc dupPaths).1 = ["a.jpg", "a.xml", "b.png", "b.xml"] :=
  ⟨(exportVoc_duplicate_behavior dupPaths).2.1.mpr (by decide), by decide⟩

/-! ### Claim C9 infrastructure -/

def isSave : Eff → Bool
  | .save _ => true
  | _ => false

/-- Whether the per-sample loop of `compute_patch_embeddings` skips this
patches-field value (no detections). -/
def skipsPatches {D : Type} (p : Option (PatchLabel D)) : Bool :=
  match parsePatches p with
  | none => true
  | some [] => true
  | some (_ :: _) => false

theorem getField_setField_ne {D α : Type} (s : Sample D α) (f : String)
    (t : Tensor α) (g : String) (hg : g ≠ f) :
    getField (setField s f t) g = getField s g := by
  have hfg : (f == g) = false := beq_eq_false_iff_ne.mpr (Ne.symm hg)
  simp [getField, setField, List.find?_cons, hfg]

theorem filter_isSave_single {D α : Type} (ss : List (Sample D α))
    (f : String) :
    ((ss.flatMap (fun s =>
        [Eff.decode s.filepath, Eff.write s.id f, Eff.save s.id])).filter
      isSave) = ss.map (fun s => Eff.save s.id) := by
  induction ss with
  | nil => rfl
  | cons s rest ih => simp [ih, isSave]

theorem write_mem_single {D α : Type} (ss : List (Sample D α)) (f : String)
    (i : Nat) (g : String)
    (h : Eff.write i g ∈ ss.flatMap (fun s =>
      [Eff.decode s.filepath, Eff.write s.id f, Eff.save s.id])) :
    g = f := by
  rcases List.mem_flatMap.mp h with ⟨s, _, hm⟩
  cases hm with
  | tail _ hm2 =>
    cases hm2 with
    | head => rfl
    | tail _ hm3 =>
      cases hm3 with
      | tail _ hm4 => cases hm4

theorem filter_isSave_batch {D α : Type} (cs : List (List (Sample D α)))
    (f : String) :
    ((cs.flatMap (fun c =>
        c.map (fun s => Eff.decode s.filepath) ++
        c.flatMap (fun s => [Eff.write s.id f, Eff.save s.id]))).filter
      isSave) = cs.flatten.map (fun s => Eff.save s.id) := by
  induction cs with
  | nil => rfl
  | cons c rest ih =>
    simp only [List.flatMap_cons, List.filter_append, ih, List.flatten_cons,
      List.map_append]
    congr 1
    · rw [show (c.map (fun s => Eff.decode s.filepath)).filter isSave = []
          from by induction c with
            | nil => rfl
            | cons x xs ihc => simp [isSave, ihc]]
      rw [List.nil_append]
      induction c with
      | nil => rfl
      | cons x xs ihc => simp [isSave, ihc]

theorem write_mem_batch {D α : Type} (cs : List (List (Sample D α)))
    (f : String) (i : Nat) (g : String)
    (h : Eff.write i g ∈ cs.flatMap (fun c =>
      c.map (fun s => Eff.decode s.filepath) ++
      c.flatMap (fun s => [Eff.write s.id f, Eff.save s.id]))) :
    g = f := by
  rcases List.mem_flatMap.mp h with ⟨c, hc, hm⟩
  rcases List.mem_append.mp hm with hm | hm
  · rcases List.mem_map.mp hm with ⟨s, _, hs⟩
    exact absurd hs (by simp)
  · rcases List.mem_flatMap.mp hm with ⟨s, _, hs⟩
    cases hs with
    | head => rfl
    | tail _ hs2 =>
      cases hs2 with
      | tail _ hs3 => cases hs3

theorem filter_isSave_patch {D α : Type} (ss : List (Sample D α))
    (f : String) :
    ((ss.flatMap (fun s =>
        if skipsPatches s.patches then []
        else [Eff.decode s.filepath, Eff.write s.id f,
          Eff.save s.id])).filter isSave) =
      (ss.filter (fun s => !skipsPatches s.patches)).map
        (fun s => Eff.save s.id) := by
  induction ss with
  | nil => rfl
  | cons s rest ih =>
    by_cases hs : skipsPatches s.patches
    · simp [hs, ih]
    · simp [hs, ih, isSave]

theorem write_mem_patch {D α : Type} (ss : List (Sample D α)) (f : String)
    (i : Nat) (g : String)
    (h : Eff.write i g ∈ ss.flatMap (fun s =>
      if skipsPatches s.patches then []
      else [Eff.decode s.filepath, Eff.write s.id f, Eff.save s.id])) :
    g = f := by
  rcases List.mem_flatMap.mp h with ⟨s, _, hm⟩
  by_cases hs : skipsPatches s.patches
  · rw [if_pos hs] at hm; simp at hm
  · rw [if_neg hs] at hm
    cases hm with
    | tail _ hm2 =>
      cases hm2 with
      | head => rfl
      | tail _ hm3 =>
        cases hm3 with
        | tail _ hm4 => cases hm4

/-- For a row-consistent model, the single/batched patch dispatch on a
nonempty detection list succeeds and returns the stacked per-patch
embeddings in detection order (for any negotiated batch size ≥ 1). -/
theorem embedPatchesDispatch_eval {D Img α : Type} (m : PipeModel Img α)
    (extract : Img → D → Bool → Option ℚ → Img) (v : Img → Tensor α)
    (hv : ∀ i, m.embed i = .arr [v i])
    (hva : ∀ l, m.embedAll l = .arr (l.map v)) (img : Img) (fsq : Bool)
    (alpha : Option ℚ) (bsOpt : Option Nat)
    (hbs : ∀ bs, bsOpt = some bs → 1 ≤ bs) (d : D) (ds : List D) :
    embedPatchesDispatch m extract img fsq alpha bsOpt (d :: ds) =
      .ok (.arr ((d :: ds).map (fun d2 => v (extract img d2 fsq alpha)))) := by
  cases bsOpt with
  | none =>
    show embedPatchesSingle m extract img fsq alpha (d :: ds) = _
    unfold embedPatchesSingle
    rw [show (d :: ds).map (fun d2 => m.embed (extract img d2 fsq alpha)) =
        ((d :: ds).map (fun d2 => [v (extract img d2 fsq alpha)])).map
          Tensor.arr from by simp [hv]]
    rw [npConcat_map_arr]
    simp only [List.map_cons]
    rw [show ([v (extract img d fsq alpha)] ::
          ds.map (fun d2 => [v (extract img d2 fsq alpha)])) =
        (d :: ds).map (fun d2 => [v (extract img d2 fsq alpha)]) from rfl]
    rw [flatten_map_singleton]
    exact rfl
  | some bs =>
    have hbs1 : 1 ≤ bs := hbs bs rfl
    show embedPatchesBatch m extract img fsq alpha bs (d :: ds) = _
    unfold embedPatchesBatch
    rw [show (chunkList bs (d :: ds)).map
          (fun batch => m.embedAll (batch.map
            (fun d2 => extract img d2 fsq alpha))) =
        ((chunkList bs (d :: ds)).map (fun batch => batch.map
          (fun d2 => v (extract img d2 fsq alpha)))).map Tensor.arr from by
        simp [hva, List.map_map, Function.comp_def]]
    rw [npConcat_map_arr]
    have hflat : ((chunkList bs (d :: ds)).map (fun batch => batch.map
        (fun d2 => v (extract img d2 fsq alpha)))).flatten =
        (d :: ds).map (fun d2 => v (extract img d2 fsq alpha)) := by
      rw [← List.map_flatten, chunkList_flatten bs hbs1]
    have hne : chunkList bs (d :: ds) ≠ [] := by
      intro hcc
      exact List.noConfusion ((chunkList_eq_nil_iff bs (d :: ds)).mp hcc)
    match hcc : chunkList bs (d :: ds) with
    | [] => exact absurd hcc hne
    | c :: cs =>
      rw [hcc] at hflat
      exact congrArg (fun l => Except.ok (Tensor.arr l)) hflat

/-- Field-mode characterization of the patch loop for a row-consistent
model: each sample with detections is decoded, written (only field `f`)
and saved exactly once in order; skipped samples are untouched; nothing
is accumulated. -/
theorem patchLoop_some_eq2 {D Img α : Type} (m : PipeModel Img α)
    (dec : String → Img) (extract : Img → D → Bool → Option ℚ → Img)
    (v : Img → Tensor α) (hv : ∀ i, m.embed i = .arr [v i])
    (hva : ∀ l, m.embedAll l = .arr (l.map v)) (f : String) (fsq : Bool)
    (alpha : Option ℚ) (bsOpt : Option Nat)
    (hbs : ∀ bs, bsOpt = some bs → 1 ≤ bs) (ss : List (Sample D α)) :
    patchLoop m dec extract (some f) fsq alpha bsOpt ss =
      (ss.map (fun s =>
        if skipsPatches s.patches then s
        else setField s f (.arr (((parsePatches s.patches).getD []).map
          (fun d2 => v (extract (dec s.filepath) d2 fsq alpha))))),
      ss.flatMap (fun s =>
        if skipsPatches s.patches then []
        else [Eff.decode s.filepath, Eff.write s.id f, Eff.save s.id]),
      .ok []) := by
  induction ss with
  | nil => rfl
  | cons s rest ih =>
    cases hp : parsePatches s.patches with
    | none =>
      have hsk : skipsPatches s.patches = true := by
        unfold skipsPatches; rw [hp]
      simp [patchLoop, hp, ih, hsk]
    | some dets =>
      cases dets with
      | nil =>
        have hsk : skipsPatches s.patches = true := by
          unfold skipsPatches; rw [hp]
        simp [patchLoop, hp, ih, hsk]
      | cons d ds =>
        have hsk : skipsPatches s.patches = false := by
          unfold skipsPatches; rw [hp]
        rw [patchLoop, hp]
        dsimp only
        rw [embedPatchesDispatch_eval m extract v hv hva (dec s.filepath) fsq
            alpha bsOpt hbs d ds, ih]
        simp [hsk, hp]

/-! ### Claim C9 -/

/-- C9: in field mode, `compute_embeddings` and
`compute_patch_embeddings` modify exactly one named field per sample: the
final samples are a per-sample map (each output sample a function of its
own input sample only — writes to distinct samples are independent), the
save events are exactly one per processed sample in order, every write
event names the given `embeddings_field`, and a field write preserves the
sample's id, filepath, patches field, and every other stored field. -/
theorem field_mode_single_write {D Img α : Type} (m : PipeModel Img α)
    (dec : String → Img) (extract : Img → D → Bool → Option ℚ → Img)
    (v : Img → Tensor α) (hv : ∀ i, m.embed i = .arr [v i])
    (hva : ∀ l, m.embedAll l = .arr (l.map v))
    (h1 : m.isEmbMixin = true) (h2 : m.hasEmbeddings = true)
    (h4 : m.isTorch = false) (ss : List (Sample D α)) (f : String)
    (req d : Option Int)
    (hreq : ∀ k, (parseBatchSize req d m.raggedBatches).1 = some k → 1 ≤ k)
    (fsq : Bool) (alpha : Option ℚ) :
    (computeEmbeddings m dec .image ss (some f) req d).samples =
      ss.map (fun s => setField s f (v (dec s.filepath))) ∧
    ((computeEmbeddings m dec .image ss (some f) req d).trace.filter
        isSave) = ss.map (fun s => Eff.save s.id) ∧
    (∀ i g, Eff.write i g ∈
      (computeEmbeddings m dec .image ss (some f) req d).trace → g = f) ∧
    (computePatchEmbeddings m dec extract .image ss (some f) req d fsq
        alpha).samples =
      ss.map (fun s =>
        if skipsPatches s.patches then s
        else setField s f (.arr (((parsePatches s.patches).getD []).map
          (fun d2 => v (extract (dec s.filepath) d2 fsq alpha))))) ∧
    ((computePatchEmbeddings m dec extract .image ss (some f) req d fsq
        alpha).trace.filter isSave) =
      (ss.filter (fun s => !skipsPatches s.patches)).map
        (fun s => Eff.save s.id) ∧
    (∀ i g, Eff.write i g ∈
      (computePatchEmbeddings m dec extract .image ss (some f) req d fsq
        alpha).trace → g = f) ∧
    (∀ (s : Sample D α) (t : Tensor α),
      (setField s f t).id = s.id ∧ (setField s f t).filepath = s.filepath ∧
      (setField s f t).patches = s.patches ∧
      ∀ g, g ≠ f → getField (setField s f t) g = getField s g) := by
  have hbsOpt : ∀ bs,
      ((parseBatchSize req d m.raggedBatches).1).map Int.toNat = some bs →
      1 ≤ bs := by
    intro bs hbs2
    cases hpp : (parseBatchSize req d m.raggedBatches).1 with
    | none => rw [hpp] at hbs2; simp at hbs2
    | some k =>
      rw [hpp] at hbs2
      simp at hbs2
      have := hreq k hpp
      omega
  refine ⟨?_, ?_, ?_, ?_, ?_, ?_, ?_⟩
  · rw [computeEmbeddings_run m dec ss (some f) req d h1 h2 h4]
    match hp : (parseBatchSize req d m.raggedBatches).1 with
    | none =>
      dsimp only
      rw [singleLoop_some_eq m dec f v hv]
    | some k =>
      have hbn : 1 ≤ k.toNat := by have := hreq k hp; omega
      dsimp only
      rw [batchLoop_some_eq m dec f v hva]
      dsimp only
      rw [chunkList_flatten k.toNat hbn]
  · rw [computeEmbeddings_run m dec ss (some f) req d h1 h2 h4]
    match hp : (parseBatchSize req d m.raggedBatches).1 with
    | none =>
      dsimp only
      rw [singleLoop_some_eq m dec f v hv]
      exact filter_isSave_single ss f
    | some k =>
      have hbn : 1 ≤ k.toNat := by have := hreq k hp; omega
      dsimp only
      rw [batchLoop_some_eq m dec f v hva]
      dsimp only
      rw [filter_isSave_batch (chunkList k.toNat ss) f,
        chunkList_flatten k.toNat hbn]
  · rw [computeEmbeddings_run m dec ss (some f) req d h1 h2 h4]
    match hp : (parseBatchSize req d m.raggedBatches).1 with
    | none =>
      dsimp only
      rw [singleLoop_some_eq m dec f v hv]
      exact fun i g hm => write_mem_single ss f i g hm
    | some k2 =>
      dsimp only
      rw [batchLoop_some_eq m dec f v hva]
      exact fun i g hm => write_mem_batch (chunkList k2.toNat ss) f i g hm
  · rw [computePatchEmbeddings_run m dec extract ss (some f) req d fsq
      alpha h1 h2 h4]
    rw [patchLoop_some_eq2 m dec extract v hv hva f fsq alpha _ hbsOpt ss]
  · rw [computePatchEmbeddings_run m dec extract ss (some f) req d fsq
      alpha h1 h2 h4]
    rw [patchLoop_some_eq2 m dec extract v hv hva f fsq alpha _ hbsOpt ss]
    exact filter_isSave_patch ss f
  · rw [computePatchEmbeddings_run m dec extract ss (some f) req d fsq
      alpha h1 h2 h4]
    rw [patchLoop_some_eq2 m dec extract v hv hva f fsq alpha _ hbsOpt ss]
    exact fun i g hm => write_mem_patch ss f i g hm
  · exact fun s t =>
      ⟨rfl, rfl, rfl, fun g hg => getField_setField_ne s f t g hg⟩

/-- A sample carrying two detections in its patches field. -/
def cexSampleD : Sample Unit Nat := ⟨3, "img3", some (.detections [(), ()]), []⟩

/-- C9 witness: the field-mode frame conditions evaluated on a concrete
two-sample collection (one skipped, one with two detections). -/
theorem field_mode_single_write_witness :
    (computeEmbeddings invModel cexDecode .image [cexSample, cexSampleD]
        (some "emb") none none).samples =
      [cexSample, cexSampleD].map
        (fun s => setField s "emb"
          ((fun _ => Tensor.scalar 5) (cexDecode s.filepath))) ∧
    ((computeEmbeddings invModel cexDecode .image [cexSample, cexSampleD]
        (some "emb") none none).trace.filter isSave) =
      [cexSample, cexSampleD].map (fun s => Eff.save s.id) ∧
    (∀ i g, Eff.write i g ∈
      (computeEmbeddings invModel cexDecode .image [cexSample, cexSampleD]
        (some "emb") none none).trace → g = "emb") ∧
    (computePatchEmbeddings invModel cexDecode cexExtract .image
        [cexSample, cexSampleD] (some "emb") none none false none).samples =
      [cexSample, cexSampleD].map (fun s =>
        if skipsPatches s.patches then s
        else setField s "emb" (.arr (((parsePatches s.patches).getD []).map
          (fun d2 => (fun _ => Tensor.scalar 5)
            (cexExtract (cexDecode s.filepath) d2 false none))))) ∧
    ((computePatchEmbeddings invModel cexDecode cexExtract .image
        [cexSample, cexSampleD] (some "emb") none none false
        none).trace.filter isSave) =
      ([cexSample, cexSampleD].filter
        (fun s => !skipsPatches s.patches)).map (fun s => Eff.save s.id) ∧
    (∀ i g, Eff.write i g ∈
      (computePatchEmbeddings invModel cexDecode cexExtract .image
        [cexSample, cexSampleD] (some "emb") none none false none).trace →
      g = "emb") ∧
    (∀ (s : Sample Unit Nat) (t : Tensor Nat),
      (setField s "emb" t).id = s.id ∧
      (setField s "emb" t).filepath = s.filepath ∧
      (setField s "emb" t).patches = s.patches ∧
      ∀ g, g ≠ "emb" →
        getField (setField s "emb" t) g = getField s g) :=
  field_mode_single_write invModel cexDecode cexExtract
    (fun _ => Tensor.scalar 5) (fun _ => rfl) (fun _ => rfl) rfl rfl rfl
    [cexSample, cexSampleD] "emb" none none
    (fun _ hk => Option.noConfusion hk) false none

end FO
